import Mathlib

/-!
Verification of the StateMachine_Frame hierarchical finite-state-machine runtime.

The definitions below are a shallow embedding of the C++ sources:
- `src/state_machine/src/components/condition_manager.cpp` (condition store,
  duration timers),
- `src/state_machine/src/components/state_manager.cpp` (state hierarchy),
- `src/state_machine/src/components/transition_manager.cpp` (transition table),
- `src/state_machine/src/components/event_handler.cpp` (component dispatcher),
- `src/state_machine/src/state_machine.cpp` (monolithic `FiniteStateMachine`
  dispatcher).

Time points are modelled as integer milliseconds, maps as association lists,
thrown `std::invalid_argument` exceptions as `Except.error`, and callback
invocations as an explicit trace of callback records.
-/

namespace SMF

/-! ## Data model (include/common_define.h, component design) -/

/-- A condition descriptor: name, multi-range list, duration in ms. -/
structure Condition where
  name : String
  range_values : List (Int × Int)
  duration : Int
deriving DecidableEq, Repr

/-- Runtime value record of a named condition. -/
structure ConditionValue where
  name : String
  value : Int
  lastUpdateTime : Int
  lastChangedTime : Int
deriving DecidableEq, Repr

/-- Matched-condition snapshot attached to events/logs. -/
structure ConditionInfo where
  name : String
  value : Int
  duration : Int
deriving DecidableEq, Repr

/-- A pending duration-timer entry. -/
structure DurationCondition where
  name : String
  value : Int
  duration : Int
  expiryTime : Int
deriving DecidableEq, Repr

/-- An enqueued condition update. -/
structure ConditionUpdateEvent where
  name : String
  value : Int
  updateTime : Int
deriving DecidableEq, Repr

/-- The condition-value map `condition_values_` as an association list. -/
abbrev CondVals := List (String × ConditionValue)

/-- `condition_values_.find(name)`. -/
def findVal : CondVals → String → Option ConditionValue
  | [], _ => none
  | (k, v) :: rest, name => if k = name then some v else findVal rest name

/-- `condition_values_[name] = cv` (update in place, or insert at the end). -/
def setVal : CondVals → String → ConditionValue → CondVals
  | [], name, cv => [(name, cv)]
  | (k, v) :: rest, name, cv =>
    if k = name then (k, cv) :: rest else (k, v) :: setVal rest name cv

/-- The inner range loop of `ConditionManager::CheckConditions`: the value
matches if it falls in ANY of the ranges. -/
def valueInAnyRange (value : Int) (ranges : List (Int × Int)) : Bool :=
  ranges.any (fun r => decide (r.1 ≤ value) && decide (value ≤ r.2))

/-- One iteration of the loop body of `ConditionManager::CheckConditions`
(condition_manager.cpp, lines 102-128): look the value up (throwing when it was
never set), test value-in-any-range, then for `duration > 0` require
`elapsed = now - lastChangedTime ≥ duration`, recording a `ConditionInfo` on a
satisfied duration condition. -/
def evalCond (vals : CondVals) (now : Int) (c : Condition) :
    Except String (Bool × Option ConditionInfo) :=
  match findVal vals c.name with
  | none => Except.error ("Condition value not set: " ++ c.name)
  | some cv =>
    let inRange := valueInAnyRange cv.value c.range_values
    if c.duration > 0 && inRange then
      let elapsed := now - cv.lastChangedTime
      if elapsed ≥ c.duration then Except.ok (true, some ⟨c.name, cv.value, elapsed⟩)
      else Except.ok (false, none)
    else Except.ok (inRange, none)

/-- The loop of `ConditionManager::CheckConditions` with the accumulated
`condition_infos`; `AND` returns false (clearing the infos) at the first
failing condition, `OR` returns true at the first passing one, and the final
`return (op == "AND")` handles an exhausted list. -/
def checkConditionsAux (vals : CondVals) (now : Int) (op : String) :
    List Condition → List ConditionInfo → Except String (Bool × List ConditionInfo)
  | [], acc => Except.ok (op = "AND", acc)
  | c :: rest, acc =>
    match evalCond vals now c with
    | Except.error e => Except.error e
    | Except.ok (vir, info) =>
      let acc' := acc ++ info.toList
      if op = "AND" && !vir then Except.ok (false, [])
      else if op = "OR" && vir then Except.ok (true, acc')
      else checkConditionsAux vals now op rest acc'

/-- `ConditionManager::CheckConditions` (condition_manager.cpp, lines 82-139):
empty list is vacuously true (checked before operator validation), an operator
other than AND/OR throws, otherwise the loop above runs. -/
def CheckConditions (vals : CondVals) (now : Int) (conditions : List Condition)
    (op : String) : Except String (Bool × List ConditionInfo) :=
  if conditions.isEmpty then Except.ok (true, [])
  else if op = "AND" ∨ op = "OR" then checkConditionsAux vals now op conditions []
  else Except.error ("Invalid operator: " ++ op)

/-! ## Condition updates and duration timers (condition_manager.cpp) -/

/-- The descriptor scan inside `ConditionManager::ProcessConditionUpdates`
(condition_manager.cpp, lines 284-301): iterate `all_conditions_`; for each
descriptor with a matching name the `valueInRange` flag accumulates (it is
never reset between descriptors), and the first descriptor with
`duration > 0` while the accumulated flag is set schedules a timer and breaks.
Returns the final flag and the scheduling descriptor, if any. -/
def scanDescriptors (name : String) (value : Int) :
    List Condition → Bool → Bool × Option Condition
  | [], vir => (vir, none)
  | c :: rest, vir =>
    if c.name = name then
      let vir' := vir || valueInAnyRange value c.range_values
      if c.duration > 0 && vir' then (vir', some c)
      else scanDescriptors name value rest vir'
    else scanDescriptors name value rest vir

/-- Result of applying one queued condition update: the new value map, the
timer entries pushed onto `timer_queue_`, and the
`NotifyConditionChange(name, value, duration, valueInRange)` call, if any. -/
structure UpdateResult where
  vals : CondVals
  timers : List DurationCondition
  notified : Option (String × Int × Int × Bool)
deriving DecidableEq, Repr

/-- One iteration of `ConditionManager::ProcessConditionUpdates`
(condition_manager.cpp, lines 268-311): a never-seen name is inserted with
`lastChangedTime = lastUpdateTime = updateTime`; an unchanged value only
refreshes `lastUpdateTime`; a changed value resets `lastChangedTime`, runs the
descriptor scan, and either pushes exactly one timer entry (suppressing the
notification) or notifies with the accumulated in-range flag. -/
def processConditionUpdate (all_conditions : List Condition) (vals : CondVals)
    (u : ConditionUpdateEvent) : UpdateResult :=
  match findVal vals u.name with
  | none =>
    { vals := setVal vals u.name ⟨u.name, u.value, u.updateTime, u.updateTime⟩
      timers := []
      notified := some (u.name, u.value, 0, false) }
  | some cv =>
    if cv.value = u.value then
      { vals := setVal vals u.name
          { cv with value := u.value, lastUpdateTime := u.updateTime }
        timers := []
        notified := some (u.name, u.value, 0, false) }
    else
      let cv' : ConditionValue :=
        { cv with value := u.value, lastUpdateTime := u.updateTime,
                  lastChangedTime := u.updateTime }
      let vals' := setVal vals u.name cv'
      match scanDescriptors u.name u.value all_conditions false with
      | (_, some c) =>
        { vals := vals'
          timers := [⟨u.name, u.value, c.duration, u.updateTime + c.duration⟩]
          notified := none }
      | (vir, none) =>
        { vals := vals'
          timers := []
          notified := some (u.name, u.value, 0, vir) }

/-- The expired-entry revalidation of `ConditionManager::TimerLoop`
(condition_manager.cpp, lines 229-253): after popping an expired entry, fetch
the current `ConditionValue`; only when the value still equals the recorded one
and `now - lastChangedTime ≥ duration` does
`NotifyConditionChange(name, value, duration, true)` fire; otherwise the entry
is dropped with no notification. -/
def processExpiredCondition (vals : CondVals) (e : DurationCondition) (now : Int) :
    Option (String × Int × Int × Bool) :=
  match findVal vals e.name with
  | none => none
  | some cv =>
    if cv.value = e.value ∧ now - cv.lastChangedTime ≥ e.duration then
      some (e.name, e.value, e.duration, true)
    else none

/-- `ConditionManager::AddCondition` (condition_manager.cpp, lines 141-156):
a no-op while running; otherwise append the descriptor and initialise the
value record to 0 when the name is new. -/
def AddCondition (running : Bool) (all_conditions : List Condition)
    (vals : CondVals) (c : Condition) (now : Int) : List Condition × CondVals :=
  if running then (all_conditions, vals)
  else
    (all_conditions ++ [c],
     match findVal vals c.name with
     | some _ => vals
     | none => vals ++ [(c.name, ⟨c.name, 0, now, now⟩)])

/-! ## State hierarchy (state_manager.cpp) -/

/-- A registered state: name, optional parent, derived children, timeout. -/
structure StateInfo where
  name : String
  parent : String
  children : List String
  timeout : Int
deriving DecidableEq, Repr

/-- The `states_` map as an association list. -/
abbrev StateMap := List (String × StateInfo)

/-- `states_.find(name)`. -/
def findState : StateMap → String → Option StateInfo
  | [], _ => none
  | (k, v) :: rest, name => if k = name then some v else findState rest name

/-- Replace the entry for `name` (or append it when missing). -/
def updState : StateMap → String → StateInfo → StateMap
  | [], name, si => [(name, si)]
  | (k, v) :: rest, name, si =>
    if k = name then (k, si) :: rest else (k, v) :: updState rest name si

/-- `StateManager::AddStateInfo` (state_manager.cpp, lines 70-91): rejected
while running or on a duplicate name; then `states_[name] = state_info` is
committed BEFORE the parent lookup, so a non-empty unregistered parent returns
false with the child left in the map. -/
def AddStateInfo (running : Bool) (states : StateMap) (si : StateInfo) :
    Bool × StateMap :=
  if running then (false, states)
  else if (findState states si.name).isSome then (false, states)
  else
    let states1 := states ++ [(si.name, si)]
    if si.parent = "" then (true, states1)
    else
      match findState states1 si.parent with
      | none => (false, states1)
      | some p =>
        (true, updState states1 si.parent
          { p with children := p.children ++ [si.name] })

/-- The per-state timeout record `current_state_timeout_`. -/
structure StateTimeoutInfo where
  state : String
  timeout : Int
  enterTime : Int
  expiryTime : Int
deriving DecidableEq, Repr

/-- `StateManager::SetState` (state_manager.cpp, lines 93-118): an unregistered
name returns false before any mutation; otherwise the current state is
committed and the timeout record is armed (timeout > 0) or cleared (its
`state` emptied and `timeout` zeroed, times left as they were). -/
def SetState (states : StateMap) (cur : String) (tinfo : StateTimeoutInfo)
    (s : String) (now : Int) : Bool × String × StateTimeoutInfo :=
  match findState states s with
  | none => (false, cur, tinfo)
  | some si =>
    if si.timeout > 0 then (true, s, ⟨s, si.timeout, now, now + si.timeout⟩)
    else (true, s, { tinfo with state := "", timeout := 0 })

/-- The single-argument `GetStateHierarchy` loop (state_manager.cpp, lines
125-139, identical to state_machine.cpp lines 315-328): push the current name,
stop on an empty name or an unregistered one, else continue at the parent.
The C++ loop has no fuel; the Bool records that the walk reached its natural
end within the given fuel, so a `true` flag certifies the C++ behaviour. -/
def ancestorChainAux (states : StateMap) : Nat → String → List String × Bool
  | 0, current => if current = "" then ([], true) else ([], false)
  | fuel + 1, current =>
    if current = "" then ([], true)
    else
      match findState states current with
      | none => ([current], true)
      | some si =>
        let r := ancestorChainAux states fuel si.parent
        (current :: r.1, r.2)

/-- `GetStateHierarchy(state)` with the default fuel. -/
def GetStateHierarchy1 (states : StateMap) (state : String) : List String :=
  (ancestorChainAux states (states.length + 1) state).1

/-- The common-prefix drop of the two reversed chains (`state_manager.cpp`,
lines 150-157): walk both lists from the root end while the heads agree. -/
def dropCommonPrefix : List String → List String → List String × List String
  | x :: xs, y :: ys =>
    if x = y then dropCommonPrefix xs ys else (x :: xs, y :: ys)
  | xs, ys => (xs, ys)

/-- The two-argument `StateManager::GetStateHierarchy` (state_manager.cpp,
lines 141-169, identical algorithm in state_machine.cpp lines 330-357):
compute both ancestor chains, drop the common root-side prefix, reverse the
`from` remainder for the exit list and keep the `to` remainder for the enter
list. -/
def GetStateHierarchy2 (states : StateMap) (fromS toS : String) :
    List String × List String :=
  let fromStates := GetStateHierarchy1 states fromS
  let toStates := GetStateHierarchy1 states toS
  let r := dropCommonPrefix fromStates.reverse toStates.reverse
  (r.1.reverse, r.2)

/-! ## Transition table (transition_manager.cpp) -/

/-- A transition rule of the component design: multiple trigger events. -/
structure TransitionRule where
  fromState : String
  events : List String
  toState : String
  conditions : List Condition
  conditionsOperator : String
deriving DecidableEq, Repr

/-- The `transitions_` multimap as a list of (key, rule) pairs. -/
abbrev TransitionMap := List ((String × String) × TransitionRule)

/-- `TransitionManager::AddTransition` (transition_manager.cpp, lines 63-82):
rejected while running; otherwise one entry per trigger event, keyed by
`(rule.from, event)`. -/
def AddTransition (running : Bool) (transitions : TransitionMap)
    (rule : TransitionRule) : Bool × TransitionMap :=
  if running then (false, transitions)
  else (true, transitions ++ rule.events.map (fun e => ((rule.fromState, e), rule)))

/-- `TransitionManager::FindTransition` (transition_manager.cpp, lines 84-102):
fails when not running; otherwise collects every rule stored under the exact
`(state, event-name)` key — no hierarchy walk — and reports non-emptiness. -/
def FindTransition (running : Bool) (transitions : TransitionMap)
    (state : String) (evName : String) : Bool × List TransitionRule :=
  if running then
    let rules := (transitions.filter
      (fun p => p.1.1 = state ∧ p.1.2 = evName)).map (fun p => p.2)
    (!rules.isEmpty, rules)
  else (false, [])

/-! ## Event definitions (event_handler.cpp) -/

/-- A synthesized-event definition. -/
structure EventDefinition where
  name : String
  trigger_mode : String
  conditions : List Condition
  conditionsOperator : String
deriving DecidableEq, Repr

/-- `EventHandler::AddEventDefinition` (event_handler.cpp, lines 91-98):
rejected while running, otherwise appended. -/
def AddEventDefinition (running : Bool) (defs : List EventDefinition)
    (d : EventDefinition) : Bool × List EventDefinition :=
  if running then (false, defs)
  else (true, defs ++ [d])

/-! ## Dispatchers

Callback invocations (the `StateEventHandler` slots) are recorded as a trace.
All five slots default to no-ops and the pre-event slot to allow, so only the
invocation itself and its payload are modelled; the pre-event decision is a
pure function parameter. -/

/-- One recorded callback invocation (or the state commit). -/
inductive CB where
  | preEvent (state : String) (ev : String) (allowed : Bool)
  | transition (exitStates : List String) (ev : String) (enterStates : List String)
  | exitState (states : List String)
  | setStateCommit (s : String) (ok : Bool)
  | enterState (states : List String)
  | postEvent (ev : String) (handled : Bool)
deriving DecidableEq, Repr

/-- Number of committed state transitions in a trace. -/
def countCommits (trace : List CB) : Nat :=
  (trace.filter (fun c => match c with
    | CB.setStateCommit _ _ => true
    | _ => false)).length

/-- Number of post-event callback invocations in a trace. -/
def countPostEvents (trace : List CB) : Nat :=
  (trace.filter (fun c => match c with
    | CB.postEvent _ _ => true
    | _ => false)).length

/-- The rule loop of `EventHandler::ProcessEvent` (event_handler.cpp, lines
116-144): every candidate rule is condition-checked; each satisfied rule fires
`OnTransition`, `OnExitState`, `SetState`, `OnEnterState` — the loop has NO
break, and the exit/enter path is always computed from the `current_state`
local read before the loop. -/
def ehProcessRules (states : StateMap) (vals : CondVals) (now : Int)
    (current_state : String) (ev : String) :
    List TransitionRule → String × StateTimeoutInfo → Bool → List CB →
    Except String (String × StateTimeoutInfo × Bool × List CB)
  | [], st, handled, trace => Except.ok (st.1, st.2, handled, trace)
  | rule :: rest, (cur, tinfo), handled, trace =>
    match CheckConditions vals now rule.conditions rule.conditionsOperator with
    | Except.error e => Except.error e
    | Except.ok (ok, _) =>
      if ok then
        let paths := GetStateHierarchy2 states current_state rule.toState
        let commit := SetState states cur tinfo rule.toState now
        ehProcessRules states vals now current_state ev rest
          (commit.2.1, commit.2.2) true
          (trace ++ [CB.transition paths.1 ev paths.2, CB.exitState paths.1,
                     CB.setStateCommit rule.toState commit.1,
                     CB.enterState paths.2])
      else
        ehProcessRules states vals now current_state ev rest (cur, tinfo) handled trace

/-- `EventHandler::ProcessEvent` (event_handler.cpp, lines 100-150): read the
current state, run the pre-event callback (a rejected event gets only the
post-event callback with handled = false), then query `FindTransition` for the
exact `(current state, event-name)` key only — no ancestor walk. When
`FindTransition` returns false (no rules at that key) the function returns
WITHOUT invoking the post-event callback; only when rules were found does the
post-event callback fire with the final handled flag. -/
def ehProcessEvent (pre : String → String → Bool) (tmRunning : Bool)
    (transitions : TransitionMap) (states : StateMap) (vals : CondVals)
    (now : Int) (cur : String) (tinfo : StateTimeoutInfo) (ev : String) :
    Except String (String × StateTimeoutInfo × List CB) :=
  let current_state := cur
  if !(pre current_state ev) then
    Except.ok (cur, tinfo,
      [CB.preEvent current_state ev false, CB.postEvent ev false])
  else
    let found := FindTransition tmRunning transitions current_state ev
    if found.1 then
      match ehProcessRules states vals now current_state ev found.2 (cur, tinfo)
          false [CB.preEvent current_state ev true] with
      | Except.error e => Except.error e
      | Except.ok (cur', tinfo', handled, trace) =>
        Except.ok (cur', tinfo', trace ++ [CB.postEvent ev handled])
    else
      Except.ok (cur, tinfo, [CB.preEvent current_state ev true])

/-! ### Monolithic dispatcher (state_machine.cpp)

The monolithic `FiniteStateMachine` keeps its own condition shapes: a single
`[min, max]` range per condition and an `isTriggered` cache on the value
record. -/

/-- A condition of the monolithic variant (single range). -/
structure CondM where
  name : String
  range : Int × Int
  duration : Int
deriving DecidableEq, Repr

/-- A condition-value record of the monolithic variant. -/
structure CondValM where
  value : Int
  lastUpdateTime : Int
  lastChangedTime : Int
  isTriggered : Bool
deriving DecidableEq, Repr

/-- The monolith's `condition_values_` map. -/
abbrev CondValsM := List (String × CondValM)

/-- Association-list find for the monolith's value map. -/
def findValM : CondValsM → String → Option CondValM
  | [], _ => none
  | (k, v) :: rest, name => if k = name then some v else findValM rest name

/-- Association-list update for the monolith's value map. -/
def setValM : CondValsM → String → CondValM → CondValsM
  | [], name, cv => [(name, cv)]
  | (k, v) :: rest, name, cv =>
    if k = name then (k, cv) :: rest else (k, v) :: setValM rest name cv

/-- A transition rule of the monolithic variant (single trigger event). -/
structure RuleM where
  fromState : String
  event : String
  toState : String
  conditions : List CondM
  conditionsOperator : String
deriving DecidableEq, Repr

/-- The monolith's `event_transitions_` multimap. -/
abbrev TransitionMapM := List ((String × String) × RuleM)

/-- The loop of `FiniteStateMachine::CheckConditions` (state_machine.cpp,
lines 439-488): per condition, throw on an unset name; an in-range
duration-gated condition that was already `isTriggered` counts as satisfied
(OR returns, AND continues); otherwise the elapsed time decides and a
satisfied duration condition marks `isTriggered`. -/
def fsmCheckConditionsAux (now : Int) (op : String) :
    List CondM → CondValsM → Except String (Bool × CondValsM)
  | [], vals => Except.ok (op = "AND", vals)
  | c :: rest, vals =>
    match findValM vals c.name with
    | none => Except.error ("Condition value not set: " ++ c.name)
    | some cv =>
      let valueInRange := decide (c.range.1 ≤ cv.value) && decide (cv.value ≤ c.range.2)
      if c.duration > 0 && valueInRange then
        if cv.isTriggered then
          if op = "OR" then Except.ok (true, vals)
          else fsmCheckConditionsAux now op rest vals
        else
          let elapsed := now - cv.lastChangedTime
          let vir := decide (elapsed ≥ c.duration)
          let vals' := if vir then setValM vals c.name { cv with isTriggered := true }
                       else vals
          if op = "AND" && !vir then Except.ok (false, vals')
          else if op = "OR" && vir then Except.ok (true, vals')
          else fsmCheckConditionsAux now op rest vals'
      else
        if op = "AND" && !valueInRange then Except.ok (false, vals)
        else if op = "OR" && valueInRange then Except.ok (true, vals)
        else fsmCheckConditionsAux now op rest vals

/-- `FiniteStateMachine::CheckConditions` (state_machine.cpp, lines 438-488):
an empty list is vacuously true; otherwise the loop above (the monolith does
not validate the operator). -/
def fsmCheckConditions (vals : CondValsM) (now : Int) (conditions : List CondM)
    (op : String) : Except String (Bool × CondValsM) :=
  if conditions.isEmpty then Except.ok (true, vals)
  else fsmCheckConditionsAux now op conditions vals

/-- `event_transitions_.equal_range({state, event})` in insertion order
(`std::multimap` keeps equivalent keys in insertion order). -/
def fsmFindRules (transitions : TransitionMapM) (state evName : String) :
    List RuleM :=
  (transitions.filter (fun p => p.1.1 = state ∧ p.1.2 = evName)).map (fun p => p.2)

/-- `states_[state].parent` (`operator[]` default-constructs an empty record
for an unregistered name, whose parent is the empty string). -/
def parentOf (states : StateMap) (s : String) : String :=
  match findState states s with
  | some si => si.parent
  | none => ""

/-- The inner rule loop of `FiniteStateMachine::ProcessEvent`
(state_machine.cpp, lines 376-407): the FIRST rule whose conditions hold wins;
it fires `OnTransition`, `OnExitState`, commits `current_state_ = rule.to`,
fires `OnEnterState` and breaks. The exit/enter path is computed from the walk
level `state`, not from the original current state. -/
def fsmTryRules (states : StateMap) (now : Int) (walkState : String)
    (ev : String) :
    List RuleM → CondValsM → List CB →
    Except String (Option String × CondValsM × List CB)
  | [], vals, trace => Except.ok (none, vals, trace)
  | rule :: rest, vals, trace =>
    match fsmCheckConditions vals now rule.conditions rule.conditionsOperator with
    | Except.error e => Except.error e
    | Except.ok (ok, vals') =>
      if ok then
        let paths := GetStateHierarchy2 states walkState rule.toState
        Except.ok (some rule.toState, vals',
          trace ++ [CB.transition paths.1 ev paths.2, CB.exitState paths.1,
                    CB.setStateCommit rule.toState true,
                    CB.enterState paths.2])
      else fsmTryRules states now walkState ev rest vals' trace

/-- The ancestor walk of `FiniteStateMachine::ProcessEvent` (state_machine.cpp,
lines 372-411): starting at the current state, try the rules for
`(state, event)`; on a win stop, otherwise climb to `states_[state].parent`
until the name is empty. The C++ loop has no fuel; fuel `states.length + 1`
covers every terminating walk. -/
def fsmWalk (states : StateMap) (transitions : TransitionMapM) (now : Int)
    (ev : String) :
    Nat → String → CondValsM → List CB →
    Except String (Option String × CondValsM × List CB)
  | 0, _, vals, trace => Except.ok (none, vals, trace)
  | fuel + 1, state, vals, trace =>
    if state = "" then Except.ok (none, vals, trace)
    else
      match fsmTryRules states now state ev (fsmFindRules transitions state ev)
          vals trace with
      | Except.error e => Except.error e
      | Except.ok (some newState, vals', trace') =>
        Except.ok (some newState, vals', trace')
      | Except.ok (none, vals', trace') =>
        fsmWalk states transitions now ev fuel (parentOf states state) vals' trace'

/-- `FiniteStateMachine::ProcessEvent` (state_machine.cpp, lines 359-418): a
rejected pre-event gets the post-event callback with handled = false; otherwise
the ancestor walk runs and, in EVERY branch, the post-event callback fires
exactly once with the final handled flag. -/
def fsmProcessEvent (pre : String → String → Bool) (states : StateMap)
    (transitions : TransitionMapM) (vals : CondValsM) (now : Int)
    (cur : String) (ev : String) :
    Except String (String × CondValsM × List CB) :=
  if !(pre cur ev) then
    Except.ok (cur, vals, [CB.preEvent cur ev false, CB.postEvent ev false])
  else
    match fsmWalk states transitions now ev (states.length + 1) cur vals
        [CB.preEvent cur ev true] with
    | Except.error e => Except.error e
    | Except.ok (res, vals', trace) =>
      Except.ok (res.getD cur, vals',
        trace ++ [CB.postEvent ev res.isSome])

/-- Final current state of a component-dispatcher run. -/
def currentOf : Except String (String × StateTimeoutInfo × List CB) → Option String
  | Except.ok r => some r.1
  | Except.error _ => none

/-- Callback trace of a component-dispatcher run. -/
def traceOf : Except String (String × StateTimeoutInfo × List CB) → List CB
  | Except.ok r => r.2.2
  | Except.error _ => []

/-- Final current state of a monolithic-dispatcher run. -/
def currentOfM : Except String (String × CondValsM × List CB) → Option String
  | Except.ok r => some r.1
  | Except.error _ => none

/-- Callback trace of a monolithic-dispatcher run. -/
def traceOfM : Except String (String × CondValsM × List CB) → List CB
  | Except.ok r => r.2.2
  | Except.error _ => []

/-- The winning descriptor as the C6 claim words it: the first registered
descriptor for this name with duration > 0 whose own ranges contain the new
value. Stated from the claim sentence, to be compared with the behaviour of
`processConditionUpdate`. -/
def claimFirstDurationDescriptor (all : List Condition) (name : String)
    (value : Int) : Option Condition :=
  all.find? (fun c =>
    c.name == name && decide (c.duration > 0) && valueInAnyRange value c.range_values)

/-! ## Theorems -/

/-- Claim C1: with two unconditional rules stored under the key ("S", "E"),
the component dispatcher `EventHandler::ProcessEvent` commits TWO transitions
for the single event (its rule loop has no break) and ends in "T2", while the
monolithic `FiniteStateMachine::ProcessEvent` commits exactly one — the first
satisfied rule — and stops in "T1". The claim's at-most-one-transition,
stop-on-first-win property fails on the component dispatcher. -/
theorem c1_component_dispatcher_commits_two_transitions :
    countCommits (traceOf (ehProcessEvent (fun _ _ => true) true
      [(("S", "E"), ⟨"S", ["E"], "T1", [], "AND"⟩),
       (("S", "E"), ⟨"S", ["E"], "T2", [], "AND"⟩)]
      [("S", ⟨"S", "", [], 0⟩), ("T1", ⟨"T1", "", [], 0⟩), ("T2", ⟨"T2", "", [], 0⟩)]
      [] 0 "S" ⟨"", 0, 0, 0⟩ "E")) = 2 ∧
    currentOf (ehProcessEvent (fun _ _ => true) true
      [(("S", "E"), ⟨"S", ["E"], "T1", [], "AND"⟩),
       (("S", "E"), ⟨"S", ["E"], "T2", [], "AND"⟩)]
      [("S", ⟨"S", "", [], 0⟩), ("T1", ⟨"T1", "", [], 0⟩), ("T2", ⟨"T2", "", [], 0⟩)]
      [] 0 "S" ⟨"", 0, 0, 0⟩ "E") = some "T2" ∧
    countCommits (traceOfM (fsmProcessEvent (fun _ _ => true)
      [("S", ⟨"S", "", [], 0⟩), ("T1", ⟨"T1", "", [], 0⟩), ("T2", ⟨"T2", "", [], 0⟩)]
      [(("S", "E"), ⟨"S", "E", "T1", [], "AND"⟩),
       (("S", "E"), ⟨"S", "E", "T2", [], "AND"⟩)]
      [] 0 "S" "E")) = 1 ∧
    currentOfM (fsmProcessEvent (fun _ _ => true)
      [("S", ⟨"S", "", [], 0⟩), ("T1", ⟨"T1", "", [], 0⟩), ("T2", ⟨"T2", "", [], 0⟩)]
      [(("S", "E"), ⟨"S", "E", "T1", [], "AND"⟩),
       (("S", "E"), ⟨"S", "E", "T2", [], "AND"⟩)]
      [] 0 "S" "E") = some "T1" := by
  decide

/-- Claim C2: with the hierarchy ROOT > A, ROOT > B, a rule registered only on
the ancestor ROOT for event "E", and current state A, the monolithic
dispatcher ascends the ancestor chain and applies the rule (ending in "B"),
but the component dispatcher queries `FindTransition` only for the exact
current state A, finds nothing, and commits no transition — the claimed
ancestor-chain walk is absent from the component dispatcher. -/
theorem c2_component_dispatcher_misses_ancestor_rule :
    currentOf (ehProcessEvent (fun _ _ => true) true
      [(("ROOT", "E"), ⟨"ROOT", ["E"], "B", [], "AND"⟩)]
      [("ROOT", ⟨"ROOT", "", ["A", "B"], 0⟩), ("A", ⟨"A", "ROOT", [], 0⟩),
       ("B", ⟨"B", "ROOT", [], 0⟩)]
      [] 0 "A" ⟨"", 0, 0, 0⟩ "E") = some "A" ∧
    countCommits (traceOf (ehProcessEvent (fun _ _ => true) true
      [(("ROOT", "E"), ⟨"ROOT", ["E"], "B", [], "AND"⟩)]
      [("ROOT", ⟨"ROOT", "", ["A", "B"], 0⟩), ("A", ⟨"A", "ROOT", [], 0⟩),
       ("B", ⟨"B", "ROOT", [], 0⟩)]
      [] 0 "A" ⟨"", 0, 0, 0⟩ "E")) = 0 ∧
    currentOfM (fsmProcessEvent (fun _ _ => true)
      [("ROOT", ⟨"ROOT", "", ["A", "B"], 0⟩), ("A", ⟨"A", "ROOT", [], 0⟩),
       ("B", ⟨"B", "ROOT", [], 0⟩)]
      [(("ROOT", "E"), ⟨"ROOT", "E", "B", [], "AND"⟩)]
      [] 0 "A" "E") = some "B" ∧
    countCommits (traceOfM (fsmProcessEvent (fun _ _ => true)
      [("ROOT", ⟨"ROOT", "", ["A", "B"], 0⟩), ("A", ⟨"A", "ROOT", [], 0⟩),
       ("B", ⟨"B", "ROOT", [], 0⟩)]
      [(("ROOT", "E"), ⟨"ROOT", "E", "B", [], "AND"⟩)]
      [] 0 "A" "E")) = 1 := by
  decide

/-- Claim C4: when no transition rule at all exists for the (state, event-name)
key, the component dispatcher's trace contains NO post-event callback (its
`OnPostEvent` call sits inside the `FindTransition`-succeeded branch), while
the monolithic dispatcher fires it exactly once with handled = false; on a
pre-event rejection the component dispatcher does fire it once with
handled = false. The claimed every-branch invocation fails on the component
dispatcher's no-rule branch. -/
theorem c4_component_dispatcher_skips_post_event :
    traceOf (ehProcessEvent (fun _ _ => true) true []
      [("S", ⟨"S", "", [], 0⟩)] [] 0 "S" ⟨"", 0, 0, 0⟩ "E") =
      [CB.preEvent "S" "E" true] ∧
    countPostEvents (traceOf (ehProcessEvent (fun _ _ => true) true []
      [("S", ⟨"S", "", [], 0⟩)] [] 0 "S" ⟨"", 0, 0, 0⟩ "E")) = 0 ∧
    traceOfM (fsmProcessEvent (fun _ _ => true) [("S", ⟨"S", "", [], 0⟩)] []
      [] 0 "S" "E") =
      [CB.preEvent "S" "E" true, CB.postEvent "E" false] ∧
    traceOf (ehProcessEvent (fun _ _ => false) true []
      [("S", ⟨"S", "", [], 0⟩)] [] 0 "S" ⟨"", 0, 0, 0⟩ "E") =
      [CB.preEvent "S" "E" false, CB.postEvent "E" false] := by
  decide

/-- Under AND, once the conditions before `c` all passed and `c` fails, the
loop returns false with the infos cleared, whatever comes after `c`. -/
theorem checkAux_and_short_circuit (vals : CondVals) (now : Int)
    (pre : List Condition) (c : Condition) (post : List Condition)
    (hpre : ∀ d ∈ pre, ∃ i, evalCond vals now d = Except.ok (true, i))
    (hc : evalCond vals now c = Except.ok (false, none)) :
    ∀ acc, checkConditionsAux vals now "AND" (pre ++ c :: post) acc =
      Except.ok (false, []) := by
  induction pre with
  | nil =>
    intro acc
    simp only [List.nil_append, checkConditionsAux, hc]
    simp
  | cons d rest ih =>
    intro acc
    obtain ⟨i, hd⟩ := hpre d (by simp)
    simp only [List.cons_append, checkConditionsAux, hd]
    simpa using ih (fun d' hd' => hpre d' (by simp [hd'])) (acc ++ i.toList)

/-- Under OR, once the conditions before `c` all failed and `c` passes, the
loop returns true carrying exactly the info recorded by `c`, whatever comes
after `c`. -/
theorem checkAux_or_short_circuit (vals : CondVals) (now : Int)
    (pre : List Condition) (c : Condition) (post : List Condition)
    (i : Option ConditionInfo)
    (hpre : ∀ d ∈ pre, evalCond vals now d = Except.ok (false, none))
    (hc : evalCond vals now c = Except.ok (true, i)) :
    ∀ acc, checkConditionsAux vals now "OR" (pre ++ c :: post) acc =
      Except.ok (true, acc ++ i.toList) := by
  induction pre with
  | nil =>
    intro acc
    simp only [List.nil_append, checkConditionsAux, hc]
    simp
  | cons d rest ih =>
    intro acc
    have hd := hpre d (by simp)
    simp only [List.cons_append, checkConditionsAux, hd]
    simpa using ih (fun d' hd' => hpre d' (by simp [hd'])) acc

/-- A passing condition with duration > 0 must be in range with enough time
elapsed since the last change. -/
theorem evalCond_duration_passes (vals : CondVals) (now : Int) (c : Condition)
    (i : Option ConditionInfo) (hdur : c.duration > 0)
    (h : evalCond vals now c = Except.ok (true, i)) :
    ∃ cv, findVal vals c.name = some cv ∧
      valueInAnyRange cv.value c.range_values = true ∧
      now - cv.lastChangedTime ≥ c.duration := by
  have hd' : decide (c.duration > 0) = true := decide_eq_true hdur
  cases hf : findVal vals c.name with
  | none => simp [evalCond, hf] at h
  | some cv =>
    simp only [evalCond, hf, hd', Bool.true_and] at h
    refine ⟨cv, rfl, ?_⟩
    by_cases hr : valueInAnyRange cv.value c.range_values = true
    · rw [if_pos hr] at h
      refine ⟨hr, ?_⟩
      by_cases he : now - cv.lastChangedTime ≥ c.duration
      · exact he
      · rw [if_neg he] at h
        exact absurd h (by simp)
    · rw [if_neg hr] at h
      injection h with h1
      exact absurd (Prod.mk.inj h1).1 hr

/-- Claim C5: `CheckConditions` returns true on an empty list; under AND it
returns false (with the matched-condition infos cleared) at the first failing
condition without evaluating anything after it; under OR it returns true at
the first passing condition without evaluating anything after it; and a
condition with duration > 0 passes only when its current value lies in at
least one of its ranges and `now - lastChangedTime ≥ duration`. -/
theorem c5_checkConditions_semantics :
    (∀ (vals : CondVals) (now : Int) (op : String),
      CheckConditions vals now [] op = Except.ok (true, [])) ∧
    (∀ (vals : CondVals) (now : Int) (pre : List Condition) (c : Condition)
      (post : List Condition),
      (∀ d ∈ pre, ∃ i, evalCond vals now d = Except.ok (true, i)) →
      evalCond vals now c = Except.ok (false, none) →
      CheckConditions vals now (pre ++ c :: post) "AND" = Except.ok (false, [])) ∧
    (∀ (vals : CondVals) (now : Int) (pre : List Condition) (c : Condition)
      (post : List Condition) (i : Option ConditionInfo),
      (∀ d ∈ pre, evalCond vals now d = Except.ok (false, none)) →
      evalCond vals now c = Except.ok (true, i) →
      CheckConditions vals now (pre ++ c :: post) "OR" = Except.ok (true, i.toList)) ∧
    (∀ (vals : CondVals) (now : Int) (c : Condition) (r : List ConditionInfo),
      c.duration > 0 →
      CheckConditions vals now [c] "AND" = Except.ok (true, r) →
      ∃ cv, findVal vals c.name = some cv ∧
        valueInAnyRange cv.value c.range_values = true ∧
        now - cv.lastChangedTime ≥ c.duration) := by
  have hcc : ∀ (vals : CondVals) (now : Int) (conds : List Condition) (op : String),
      conds.isEmpty = false → (op = "AND" ∨ op = "OR") →
      CheckConditions vals now conds op = checkConditionsAux vals now op conds [] := by
    intro vals now conds op hne hop
    unfold CheckConditions
    rw [hne]
    rw [if_neg (by simp)]
    rw [if_pos hop]
  refine ⟨fun vals now op => rfl, ?_, ?_, ?_⟩
  · intro vals now pre c post hpre hc
    rw [hcc vals now (pre ++ c :: post) "AND" (by cases pre <;> simp) (Or.inl rfl)]
    exact checkAux_and_short_circuit vals now pre c post hpre hc []
  · intro vals now pre c post i hpre hc
    rw [hcc vals now (pre ++ c :: post) "OR" (by cases pre <;> simp) (Or.inr rfl)]
    simpa using checkAux_or_short_circuit vals now pre c post i hpre hc []
  · intro vals now c r hdur hres
    rw [hcc vals now [c] "AND" (by simp) (Or.inl rfl)] at hres
    unfold checkConditionsAux at hres
    cases he : evalCond vals now c with
    | error e => rw [he] at hres; exact absurd hres (by simp)
    | ok p =>
      obtain ⟨vir, info⟩ := p
      rw [he] at hres
      cases vir with
      | false => simp at hres
      | true => exact evalCond_duration_passes vals now c info hdur he

/-- Witness for C5 at concrete inputs: with "a" = 15 (changed at t=100) and
"b" = 5, at now = 700: the empty list is true; under AND, a failing "b"
condition after a passing duration condition yields false without touching a
never-set name placed after it; under OR, the passing duration condition
yields true (elapsed 600 ≥ 500) without touching the never-set name; and the
satisfied duration condition implies in-range and elapsed ≥ duration. -/
theorem c5_witness :
    CheckConditions [("a", ⟨"a", 15, 100, 100⟩), ("b", ⟨"b", 5, 0, 0⟩)] 700 [] "AND" =
      Except.ok (true, []) ∧
    CheckConditions [("a", ⟨"a", 15, 100, 100⟩), ("b", ⟨"b", 5, 0, 0⟩)] 700
      [⟨"a", [(10, 20)], 500⟩, ⟨"b", [(10, 20)], 0⟩, ⟨"zzz", [(0, 0)], 0⟩] "AND" =
      Except.ok (false, []) ∧
    CheckConditions [("a", ⟨"a", 15, 100, 100⟩), ("b", ⟨"b", 5, 0, 0⟩)] 700
      [⟨"b", [(10, 20)], 0⟩, ⟨"a", [(10, 20)], 500⟩, ⟨"zzz", [(0, 0)], 0⟩] "OR" =
      Except.ok (true, [⟨"a", 15, 600⟩]) ∧
    ∃ cv, findVal [("a", ⟨"a", 15, 100, 100⟩), ("b", ⟨"b", 5, 0, 0⟩)] "a" = some cv ∧
      valueInAnyRange cv.value [(10, 20)] = true ∧
      700 - cv.lastChangedTime ≥ (500 : Int) := by
  refine ⟨c5_checkConditions_semantics.1 _ _ _, ?_, ?_, ?_⟩
  · exact c5_checkConditions_semantics.2.1 _ _ [⟨"a", [(10, 20)], 500⟩]
      ⟨"b", [(10, 20)], 0⟩ [⟨"zzz", [(0, 0)], 0⟩]
      (by
        intro d hd
        simp only [List.mem_singleton] at hd
        exact ⟨some ⟨"a", 15, 600⟩, by rw [hd]; rfl⟩)
      (by rfl)
  · exact c5_checkConditions_semantics.2.2.1 _ _ [⟨"b", [(10, 20)], 0⟩]
      ⟨"a", [(10, 20)], 500⟩ [⟨"zzz", [(0, 0)], 0⟩] (some ⟨"a", 15, 600⟩)
      (by
        intro d hd
        simp only [List.mem_singleton] at hd
        rw [hd]; rfl)
      (by rfl)
  · exact c5_checkConditions_semantics.2.2.2 _ _ ⟨"a", [(10, 20)], 500⟩
      [⟨"a", 15, 600⟩] (by norm_num) (by rfl)

/-- Claim C6, counterexample: descriptors for name "x" are, in order,
(ranges [10,20], duration 0), (ranges [50,60], duration 700),
(ranges [10,20], duration 500). Updating "x" from 0 to 15 schedules exactly
one timer entry, but with duration 700 — taken from the second descriptor,
whose own ranges do NOT contain 15 (the in-range flag accumulated from the
first descriptor) — while the claim's first descriptor with duration > 0 and
15 in its own ranges is the third one, with duration 500. -/
theorem c6_counterexample_accumulated_range_flag :
    (processConditionUpdate
      [⟨"x", [(10, 20)], 0⟩, ⟨"x", [(50, 60)], 700⟩, ⟨"x", [(10, 20)], 500⟩]
      [("x", ⟨"x", 0, 0, 0⟩)] ⟨"x", 15, 1000⟩).timers =
      [⟨"x", 15, 700, 1700⟩] ∧
    claimFirstDurationDescriptor
      [⟨"x", [(10, 20)], 0⟩, ⟨"x", [(50, 60)], 700⟩, ⟨"x", [(10, 20)], 500⟩]
      "x" 15 = some ⟨"x", [(10, 20)], 500⟩ ∧
    valueInAnyRange 15 [(50, 60)] = false ∧
    (700 : Int) ≠ 500 := by
  decide

/-- `findVal` after `setVal` at the same name yields the written record. -/
theorem findVal_setVal (vals : CondVals) (name : String) (cv : ConditionValue) :
    findVal (setVal vals name cv) name = some cv := by
  induction vals with
  | nil => simp [setVal, findVal]
  | cons p rest ih =>
    obtain ⟨k, v⟩ := p
    by_cases hk : k = name
    · simp [setVal, findVal, hk]
    · simp only [setVal, findVal, hk, if_false]
      simpa [findVal, hk] using ih

/-- A scheduling descriptor returned by the scan carries the updated name, a
positive duration, and belongs to the descriptor list. -/
theorem scanDescriptors_some_props (name : String) (value : Int) :
    ∀ (all : List Condition) (vir v' : Bool) (c : Condition),
      scanDescriptors name value all vir = (v', some c) →
      c.name = name ∧ c.duration > 0 ∧ c ∈ all := by
  intro all
  induction all with
  | nil => intro vir v' c h; simp [scanDescriptors] at h
  | cons d rest ih =>
    intro vir v' c h
    by_cases hn : d.name = name
    · simp only [scanDescriptors, hn, if_true] at h
      by_cases hd : (decide (d.duration > 0) &&
          (vir || valueInAnyRange value d.range_values)) = true
      · rw [if_pos hd] at h
        obtain ⟨h1, h2⟩ := Prod.mk.inj h
        cases Option.some.inj h2
        exact ⟨hn, by simpa using (Bool.and_eq_true _ _ |>.mp hd).1, by simp⟩
      · rw [if_neg hd] at h
        obtain ⟨hc1, hc2, hc3⟩ := ih _ _ _ h
        exact ⟨hc1, hc2, by simp [hc3]⟩
    · simp only [scanDescriptors, hn, if_false] at h
      obtain ⟨hc1, hc2, hc3⟩ := ih _ _ _ h
      exact ⟨hc1, hc2, by simp [hc3]⟩

/-- If a scheduling descriptor is returned starting from a false flag, then the
value matched the ranges of some same-named descriptor in the list. -/
theorem scanDescriptors_some_range (name : String) (value : Int) :
    ∀ (all : List Condition) (vir v' : Bool) (c : Condition),
      scanDescriptors name value all vir = (v', some c) →
      vir = true ∨ ∃ d ∈ all, d.name = name ∧ valueInAnyRange value d.range_values = true := by
  intro all
  induction all with
  | nil => intro vir v' c h; simp [scanDescriptors] at h
  | cons d rest ih =>
    intro vir v' c h
    by_cases hn : d.name = name
    · simp only [scanDescriptors, hn, if_true] at h
      by_cases hd : (decide (d.duration > 0) &&
          (vir || valueInAnyRange value d.range_values)) = true
      · rw [if_pos hd] at h
        have hor : (vir || valueInAnyRange value d.range_values) = true :=
          (Bool.and_eq_true _ _ |>.mp hd).2
        cases Bool.or_eq_true _ _ |>.mp hor with
        | inl hv => exact Or.inl hv
        | inr hr => exact Or.inr ⟨d, by simp, hn, hr⟩
      · rw [if_neg hd] at h
        cases ih _ _ _ h with
        | inl hv =>
          cases Bool.or_eq_true _ _ |>.mp hv with
          | inl hv' => exact Or.inl hv'
          | inr hr => exact Or.inr ⟨d, by simp, hn, hr⟩
        | inr hex =>
          obtain ⟨e, he, hen, her⟩ := hex
          exact Or.inr ⟨e, by simp [he], hen, her⟩
    · simp only [scanDescriptors, hn, if_false] at h
      cases ih _ _ _ h with
      | inl hv => exact Or.inl hv
      | inr hex =>
        obtain ⟨e, he, hen, her⟩ := hex
        exact Or.inr ⟨e, by simp [he], hen, her⟩

/-- When some same-named descriptor has a positive duration and contains the
value in its own ranges, the scan schedules (for it or an earlier one). -/
theorem scanDescriptors_schedules (name : String) (value : Int) :
    ∀ (all : List Condition), (∃ d ∈ all, d.name = name ∧ d.duration > 0 ∧
      valueInAnyRange value d.range_values = true) →
      ∀ vir, ∃ v' c, scanDescriptors name value all vir = (v', some c) := by
  intro all
  induction all with
  | nil => rintro ⟨d, hd, -⟩ _; simp at hd
  | cons e rest ih =>
    rintro ⟨d, hd, hdn, hdd, hdr⟩ vir
    rcases List.mem_cons.mp hd with he | hrest
    · subst he
      simp only [scanDescriptors, hdn, if_true]
      have hor : (vir || valueInAnyRange value d.range_values) = true := by
        simp [hdr]
      have hcond : (decide (d.duration > 0) &&
          (vir || valueInAnyRange value d.range_values)) = true := by
        simp [hdd, hor]
      rw [if_pos hcond]
      exact ⟨_, d, rfl⟩
    · by_cases hn : e.name = name
      · simp only [scanDescriptors, hn, if_true]
        by_cases hc : (decide (e.duration > 0) &&
            (vir || valueInAnyRange value e.range_values)) = true
        · rw [if_pos hc]; exact ⟨_, e, rfl⟩
        · rw [if_neg hc]
          exact ih ⟨d, hrest, hdn, hdd, hdr⟩ _
      · simp only [scanDescriptors, hn, if_false]
        exact ih ⟨d, hrest, hdn, hdd, hdr⟩ vir

/-- Claim C6 (amended): on an update of an already-tracked name, an unchanged
value only refreshes `lastUpdateTime` (same `lastChangedTime`, no timer); a
changed value resets `lastChangedTime`; at most one timer entry is ever
scheduled per update; when the scan returns a descriptor the single scheduled
entry records that descriptor's duration and expiry, the descriptor has the
updated name and a positive duration, and the value matched the ranges of some
same-named descriptor; and whenever some same-named descriptor has a positive
duration with the value in its own ranges, exactly one entry is scheduled. -/
theorem c6_update_change_detection_and_timer_scheduling :
    (∀ (all : List Condition) (vals : CondVals) (u : ConditionUpdateEvent)
      (cv : ConditionValue), findVal vals u.name = some cv → cv.value = u.value →
      processConditionUpdate all vals u =
        ⟨setVal vals u.name { cv with value := u.value, lastUpdateTime := u.updateTime },
         [], some (u.name, u.value, 0, false)⟩) ∧
    (∀ (all : List Condition) (vals : CondVals) (u : ConditionUpdateEvent)
      (cv : ConditionValue), findVal vals u.name = some cv → cv.value ≠ u.value →
      findVal (processConditionUpdate all vals u).vals u.name =
        some { cv with value := u.value, lastUpdateTime := u.updateTime,
                       lastChangedTime := u.updateTime }) ∧
    (∀ (all : List Condition) (vals : CondVals) (u : ConditionUpdateEvent),
      (processConditionUpdate all vals u).timers.length ≤ 1) ∧
    (∀ (all : List Condition) (vals : CondVals) (u : ConditionUpdateEvent)
      (cv : ConditionValue) (v' : Bool) (c : Condition),
      findVal vals u.name = some cv → cv.value ≠ u.value →
      scanDescriptors u.name u.value all false = (v', some c) →
      (processConditionUpdate all vals u).timers =
        [⟨u.name, u.value, c.duration, u.updateTime + c.duration⟩] ∧
      c.name = u.name ∧ c.duration > 0 ∧ c ∈ all ∧
      ∃ d ∈ all, d.name = u.name ∧ valueInAnyRange u.value d.range_values = true) ∧
    (∀ (all : List Condition) (vals : CondVals) (u : ConditionUpdateEvent)
      (cv : ConditionValue), findVal vals u.name = some cv → cv.value ≠ u.value →
      (∃ d ∈ all, d.name = u.name ∧ d.duration > 0 ∧
        valueInAnyRange u.value d.range_values = true) →
      (processConditionUpdate all vals u).timers.length = 1) := by
  refine ⟨?_, ?_, ?_, ?_, ?_⟩
  · intro all vals u cv hf hv
    simp only [processConditionUpdate, hf]
    rw [if_pos hv]
  · intro all vals u cv hf hv
    simp only [processConditionUpdate, hf]
    rw [if_neg hv]
    cases hs : scanDescriptors u.name u.value all false with
    | mk v' oc =>
      cases oc with
      | none => simp only [hs]; simpa using findVal_setVal vals u.name _
      | some c => simp only [hs]; simpa using findVal_setVal vals u.name _
  · intro all vals u
    cases hf : findVal vals u.name with
    | none => simp [processConditionUpdate, hf]
    | some cv =>
      by_cases hv : cv.value = u.value
      · simp [processConditionUpdate, hf, hv]
      · simp only [processConditionUpdate, hf]
        rw [if_neg hv]
        cases hs : scanDescriptors u.name u.value all false with
        | mk v' oc => cases oc <;> simp [hs]
  · intro all vals u cv v' c hf hv hs
    have hp := scanDescriptors_some_props u.name u.value all false v' c hs
    have hr := scanDescriptors_some_range u.name u.value all false v' c hs
    refine ⟨?_, hp.1, hp.2.1, hp.2.2, ?_⟩
    · simp only [processConditionUpdate, hf]
      rw [if_neg hv]
      simp [hs]
    · cases hr with
      | inl h => exact absurd h (by simp)
      | inr h => exact h
  · intro all vals u cv hf hv hex
    obtain ⟨v', c, hs⟩ := scanDescriptors_schedules u.name u.value all hex false
    simp only [processConditionUpdate, hf]
    rw [if_neg hv]
    simp [hs]

/-- Witness for C6 (amended) at concrete inputs: an unchanged update of "x"
(5 → 5 at t = 50) only refreshes `lastUpdateTime` and schedules nothing; the
changed update 0 → 15 at t = 1000 over the three descriptors of the
counterexample resets `lastChangedTime`, schedules exactly one entry, and that
entry comes from the scan's winning descriptor (ranges [50,60], duration 700)
which bears the updated name and a positive duration. -/
theorem c6_witness :
    processConditionUpdate [] [("x", ⟨"x", 5, 0, 0⟩)] ⟨"x", 5, 50⟩ =
      ⟨[("x", ⟨"x", 5, 50, 0⟩)], [], some ("x", 5, 0, false)⟩ ∧
    findVal (processConditionUpdate
      [⟨"x", [(10, 20)], 0⟩, ⟨"x", [(50, 60)], 700⟩, ⟨"x", [(10, 20)], 500⟩]
      [("x", ⟨"x", 0, 0, 0⟩)] ⟨"x", 15, 1000⟩).vals "x" =
      some ⟨"x", 15, 1000, 1000⟩ ∧
    (processConditionUpdate
      [⟨"x", [(10, 20)], 0⟩, ⟨"x", [(50, 60)], 700⟩, ⟨"x", [(10, 20)], 500⟩]
      [("x", ⟨"x", 0, 0, 0⟩)] ⟨"x", 15, 1000⟩).timers =
      [⟨"x", 15, 700, 1700⟩] ∧
    (processConditionUpdate
      [⟨"x", [(10, 20)], 0⟩, ⟨"x", [(50, 60)], 700⟩, ⟨"x", [(10, 20)], 500⟩]
      [("x", ⟨"x", 0, 0, 0⟩)] ⟨"x", 15, 1000⟩).timers.length = 1 := by
  refine ⟨?_, ?_, ?_, ?_⟩
  · exact c6_update_change_detection_and_timer_scheduling.1 [] _ ⟨"x", 5, 50⟩
      ⟨"x", 5, 0, 0⟩ rfl rfl
  · exact c6_update_change_detection_and_timer_scheduling.2.1
      [⟨"x", [(10, 20)], 0⟩, ⟨"x", [(50, 60)], 700⟩, ⟨"x", [(10, 20)], 500⟩]
      [("x", ⟨"x", 0, 0, 0⟩)] ⟨"x", 15, 1000⟩
      ⟨"x", 0, 0, 0⟩ rfl (by decide)
  · exact (c6_update_change_detection_and_timer_scheduling.2.2.2.1
      [⟨"x", [(10, 20)], 0⟩, ⟨"x", [(50, 60)], 700⟩, ⟨"x", [(10, 20)], 500⟩]
      [("x", ⟨"x", 0, 0, 0⟩)]
      ⟨"x", 15, 1000⟩ ⟨"x", 0, 0, 0⟩ true ⟨"x", [(50, 60)], 700⟩ rfl (by decide)
      (by rfl)).1
  · exact c6_update_change_detection_and_timer_scheduling.2.2.2.2
      [⟨"x", [(10, 20)], 0⟩, ⟨"x", [(50, 60)], 700⟩, ⟨"x", [(10, 20)], 500⟩]
      [("x", ⟨"x", 0, 0, 0⟩)]
      ⟨"x", 15, 1000⟩ ⟨"x", 0, 0, 0⟩ rfl (by decide)
      ⟨⟨"x", [(10, 20)], 500⟩, by simp, rfl, by norm_num, by decide⟩

/-- Claim C7: the popped duration-timer entry fires its condition-change
notification — with exactly the recorded name, value and duration and the
in-range flag true — precisely when the condition is still tracked, its current
value equals the recorded one, and the time since `lastChangedTime` is at
least the recorded duration; in every other case it is discarded with no
notification. -/
theorem c7_timer_entry_revalidated_at_fire_time (vals : CondVals)
    (e : DurationCondition) (now : Int) :
    (processExpiredCondition vals e now = some (e.name, e.value, e.duration, true) ↔
      ∃ cv, findVal vals e.name = some cv ∧ cv.value = e.value ∧
        now - cv.lastChangedTime ≥ e.duration) ∧
    (processExpiredCondition vals e now = some (e.name, e.value, e.duration, true) ∨
      processExpiredCondition vals e now = none) := by
  constructor
  · constructor
    · intro hc
      unfold processExpiredCondition at hc
      cases h : findVal vals e.name with
      | none => rw [h] at hc; simp at hc
      | some cv =>
        rw [h] at hc
        by_cases hok : cv.value = e.value ∧ now - cv.lastChangedTime ≥ e.duration
        · exact ⟨cv, rfl, hok⟩
        · simp [hok] at hc
    · rintro ⟨cv, hcv, h1, h2⟩
      unfold processExpiredCondition
      rw [hcv]
      simp [h1, h2]
  · unfold processExpiredCondition
    cases h : findVal vals e.name with
    | none => exact Or.inr rfl
    | some cv =>
      by_cases hok : cv.value = e.value ∧ now - cv.lastChangedTime ≥ e.duration
      · exact Or.inl (by simp [hok])
      · exact Or.inr (by simp [hok])

/-- A naturally terminated ancestor walk is stable under extra fuel. -/
theorem ancestorChainAux_mono (states : StateMap) :
    ∀ (n : Nat) (s : String) (l : List String),
      ancestorChainAux states n s = (l, true) →
      ∀ m, n ≤ m → ancestorChainAux states m s = (l, true) := by
  intro n
  induction n with
  | zero =>
    intro s l h m _
    by_cases hs : s = ""
    · simp only [ancestorChainAux, hs, if_true] at h
      obtain ⟨h1, -⟩ := Prod.mk.inj h
      cases m with
      | zero => simp [ancestorChainAux, hs, ← h1]
      | succ m' => simp [ancestorChainAux, hs, ← h1]
    · simp [ancestorChainAux, hs] at h
  | succ n' ih =>
    intro s l h m hm
    obtain ⟨m', rfl⟩ : ∃ m', m = m' + 1 := ⟨m - 1, by omega⟩
    have hm' : n' ≤ m' := by omega
    by_cases hs : s = ""
    · simp only [ancestorChainAux, hs, if_true] at h ⊢
      exact h
    · cases hf : findState states s with
      | none =>
        simp only [ancestorChainAux, hs, if_false, hf] at h ⊢
        exact h
      | some si =>
        simp only [ancestorChainAux, hs, if_false, hf] at h ⊢
        cases hr : ancestorChainAux states n' si.parent with
        | mk l' fin =>
          rw [hr] at h
          obtain ⟨h1, h2⟩ := Prod.mk.inj h
          have h1' : s :: l' = l := h1
          have h2' : fin = true := h2
          rw [ih si.parent l' (by rw [hr, h2']) m' hm']
          simp [← h1']

/-- Every suffix of a naturally terminated ancestor chain starting at some
member `y` is itself the (naturally terminated) ancestor chain of `y`. -/
theorem ancestorChainAux_suffix (states : StateMap) :
    ∀ (n : Nat) (s : String) (l₁ : List String) (y : String) (l₂ : List String),
      ancestorChainAux states n s = (l₁ ++ y :: l₂, true) →
      ∃ m, m ≤ n ∧ ancestorChainAux states m y = (y :: l₂, true) := by
  intro n
  induction n with
  | zero =>
    intro s l₁ y l₂ h
    by_cases hs : s = "" <;> simp [ancestorChainAux, hs] at h
  | succ n' ih =>
    intro s l₁ y l₂ h
    by_cases hs : s = ""
    · simp only [ancestorChainAux, hs, if_true] at h
      obtain ⟨h1, -⟩ := Prod.mk.inj h
      exact absurd h1.symm (List.append_ne_nil_of_right_ne_nil l₁ (by simp))
    · cases hf : findState states s with
      | none =>
        simp only [ancestorChainAux, hs, if_false, hf] at h
        obtain ⟨h1, -⟩ := Prod.mk.inj h
        cases l₁ with
        | nil =>
          simp only [List.nil_append] at h1
          obtain ⟨hy, hl⟩ := List.cons.inj h1
          refine ⟨n' + 1, le_refl _, ?_⟩
          rw [← hy, ← hl]
          simp [ancestorChainAux, hs, hf]
        | cons a t =>
          simp only [List.cons_append] at h1
          obtain ⟨-, hl⟩ := List.cons.inj h1
          exact absurd hl.symm (List.append_ne_nil_of_right_ne_nil t (by simp))
      | some si =>
        simp only [ancestorChainAux, hs, if_false, hf] at h
        cases hr : ancestorChainAux states n' si.parent with
        | mk l' fin =>
          rw [hr] at h
          obtain ⟨h1, h2⟩ := Prod.mk.inj h
          have h1' : s :: l' = l₁ ++ y :: l₂ := h1
          have h2' : fin = true := h2
          cases l₁ with
          | nil =>
            simp only [List.nil_append] at h1'
            obtain ⟨hy, hl⟩ := List.cons.inj h1'
            refine ⟨n' + 1, le_refl _, ?_⟩
            rw [← hy, ← hl]
            simp [ancestorChainAux, hs, hf, hr, h2']
          | cons a t =>
            simp only [List.cons_append] at h1'
            obtain ⟨-, hl⟩ := List.cons.inj h1'
            obtain ⟨m, hm, hmy⟩ := ih si.parent t y l₂ (by rw [hr, ← hl, h2'])
            exact ⟨m, by omega, hmy⟩

/-- `dropCommonPrefix` splits off one common prefix, and the two remainders
cannot start with the same element. -/
theorem dropCommonPrefix_spec :
    ∀ (l₁ l₂ : List String),
      ∃ c, l₁ = c ++ (dropCommonPrefix l₁ l₂).1 ∧
        l₂ = c ++ (dropCommonPrefix l₁ l₂).2 ∧
        ∀ x xs y ys, (dropCommonPrefix l₁ l₂).1 = x :: xs →
          (dropCommonPrefix l₁ l₂).2 = y :: ys → x ≠ y := by
  intro l₁
  induction l₁ with
  | nil =>
    intro l₂
    exact ⟨[], by simp [dropCommonPrefix], by simp [dropCommonPrefix],
      fun x xs y ys hx _ => by simp [dropCommonPrefix] at hx⟩
  | cons x xs ih =>
    intro l₂
    cases l₂ with
    | nil =>
      exact ⟨[], by simp [dropCommonPrefix], by simp [dropCommonPrefix],
        fun a as b bs _ hb => by simp [dropCommonPrefix] at hb⟩
    | cons y ys =>
      by_cases hxy : x = y
      · obtain ⟨c, hc1, hc2, hhd⟩ := ih ys
        refine ⟨x :: c, ?_, ?_, ?_⟩
        · simp only [dropCommonPrefix, hxy, if_true]
          simpa using hc1
        · simp only [dropCommonPrefix, hxy, if_true]
          simpa using hc2
        · intro a as b bs ha hb
          simp only [dropCommonPrefix, hxy, if_true] at ha hb
          exact hhd a as b bs ha hb
      · refine ⟨[], ?_, ?_, ?_⟩
        · simp [dropCommonPrefix, hxy]
        · simp [dropCommonPrefix, hxy]
        · intro a as b bs ha hb
          simp only [dropCommonPrefix, hxy, if_false] at ha hb
          obtain ⟨hax, -⟩ := List.cons.inj ha
          obtain ⟨hby, -⟩ := List.cons.inj hb
          rw [← hax, ← hby]
          exact hxy

/-- Dropping the common prefix of a list against itself leaves nothing. -/
theorem dropCommonPrefix_self : ∀ l : List String, dropCommonPrefix l l = ([], []) := by
  intro l
  induction l with
  | nil => rfl
  | cons x xs ih => simp [dropCommonPrefix, ih]

/-- Core of the exit/enter decomposition, over abstract remainders: when both
ancestor walks terminate naturally and the reversed chains split as a common
prefix `c` plus remainders `r₁`, `r₂` whose heads differ, the reversed `r₁` is
a prefix of A's chain, `r₂` is a suffix of B's reversed chain, and the two
remainders share no state. -/
theorem exit_enter_core (states : StateMap) (N : Nat) (A B : String)
    (cA cB c r₁ r₂ : List String)
    (hApair : ancestorChainAux states N A = (cA, true))
    (hBpair : ancestorChainAux states N B = (cB, true))
    (hc1 : cA.reverse = c ++ r₁) (hc2 : cB.reverse = c ++ r₂)
    (hhd : ∀ x xs y ys, r₁ = x :: xs → r₂ = y :: ys → x ≠ y) :
    (∃ n, r₁.reverse = cA.take n) ∧ (∃ n, r₂ = cB.reverse.drop n) ∧
    (∀ z, z ∈ r₁.reverse → z ∈ r₂ → False) := by
  have hcArev : cA = r₁.reverse ++ c.reverse := by
    have h := congrArg List.reverse hc1
    simpa using h
  have hcBrev : cB = r₂.reverse ++ c.reverse := by
    have h := congrArg List.reverse hc2
    simpa using h
  refine ⟨⟨r₁.reverse.length, ?_⟩, ⟨c.length, ?_⟩, ?_⟩
  · rw [hcArev, List.take_left]
  · rw [hc2, List.drop_left]
  · intro z hz1 hz2
    have hz1' : z ∈ r₁ := List.mem_reverse.mp hz1
    obtain ⟨a, b, hab⟩ := List.append_of_mem hz1'
    obtain ⟨a', b', hab'⟩ := List.append_of_mem hz2
    have hcAz : cA = b.reverse ++ z :: (a.reverse ++ c.reverse) := by
      rw [hcArev, hab]
      simp
    have hcBz : cB = b'.reverse ++ z :: (a'.reverse ++ c.reverse) := by
      rw [hcBrev, hab']
      simp
    obtain ⟨m1, hm1, hz1c⟩ := ancestorChainAux_suffix states N A
      b.reverse z (a.reverse ++ c.reverse) (by rw [hApair, hcAz])
    obtain ⟨m2, hm2, hz2c⟩ := ancestorChainAux_suffix states N B
      b'.reverse z (a'.reverse ++ c.reverse) (by rw [hBpair, hcBz])
    have h1 := ancestorChainAux_mono states m1 z _ hz1c (max m1 m2) (le_max_left _ _)
    have h2 := ancestorChainAux_mono states m2 z _ hz2c (max m1 m2) (le_max_right _ _)
    have hlists : z :: (a.reverse ++ c.reverse) = z :: (a'.reverse ++ c.reverse) :=
      (Prod.mk.inj (h1.symm.trans h2)).1
    have htails : a.reverse ++ c.reverse = a'.reverse ++ c.reverse :=
      (List.cons.inj hlists).2
    have ha : a = a' := by
      have h := List.append_cancel_right htails
      have h' := congrArg List.reverse h
      simpa using h'
    rw [← ha] at hab'
    cases a with
    | nil =>
      exact hhd z b z b' (by simpa using hab) (by simpa using hab') rfl
    | cons w t =>
      exact hhd w (t ++ z :: b) w (t ++ z :: b')
        (by simpa using hab) (by simpa using hab') rfl

/-- Claim C3: for states whose ancestor walks terminate naturally, the
exit list of `GetStateHierarchy(A, B)` is a prefix of `GetStateHierarchy(A)`
(most-specific first), the enter list is a suffix of the reversed
`GetStateHierarchy(B)` (least-specific first), the two lists share no state,
and for A = B both lists are empty. -/
theorem c3_exit_enter_decomposition (states : StateMap) (A B : String)
    (hA : (ancestorChainAux states (states.length + 1) A).2 = true)
    (hB : (ancestorChainAux states (states.length + 1) B).2 = true) :
    (∃ n, (GetStateHierarchy2 states A B).1 = (GetStateHierarchy1 states A).take n) ∧
    (∃ n, (GetStateHierarchy2 states A B).2 =
      ((GetStateHierarchy1 states B).reverse).drop n) ∧
    (∀ z, z ∈ (GetStateHierarchy2 states A B).1 →
      z ∈ (GetStateHierarchy2 states A B).2 → False) ∧
    (A = B →
      (GetStateHierarchy2 states A B).1 = [] ∧ (GetStateHierarchy2 states A B).2 = []) := by
  have hApair : ancestorChainAux states (states.length + 1) A =
      (GetStateHierarchy1 states A, true) := by
    cases hp : ancestorChainAux states (states.length + 1) A with
    | mk l fin =>
      have hl : GetStateHierarchy1 states A = l := by rw [GetStateHierarchy1, hp]
      rw [hp] at hA
      rw [hl, ← hA]
  have hBpair : ancestorChainAux states (states.length + 1) B =
      (GetStateHierarchy1 states B, true) := by
    cases hp : ancestorChainAux states (states.length + 1) B with
    | mk l fin =>
      have hl : GetStateHierarchy1 states B = l := by rw [GetStateHierarchy1, hp]
      rw [hp] at hB
      rw [hl, ← hB]
  obtain ⟨c, hc1, hc2, hhd⟩ :=
    dropCommonPrefix_spec (GetStateHierarchy1 states A).reverse
      (GetStateHierarchy1 states B).reverse
  cases hdef : dropCommonPrefix (GetStateHierarchy1 states A).reverse
      (GetStateHierarchy1 states B).reverse with
  | mk r₁ r₂ =>
    simp only [hdef] at hc1 hc2 hhd
    have hG : GetStateHierarchy2 states A B = (r₁.reverse, r₂) := by
      simp only [GetStateHierarchy2]
      rw [hdef]
    obtain ⟨he1, he2, hdisj⟩ := exit_enter_core states (states.length + 1) A B
      (GetStateHierarchy1 states A) (GetStateHierarchy1 states B) c r₁ r₂
      hApair hBpair hc1 hc2 hhd
    refine ⟨?_, ?_, ?_, ?_⟩
    · rw [hG]; exact he1
    · rw [hG]; exact he2
    · rw [hG]; exact hdisj
    · intro hAB
      have hre : (GetStateHierarchy1 states A).reverse =
          (GetStateHierarchy1 states B).reverse := by rw [hAB]
      rw [hre, dropCommonPrefix_self] at hdef
      obtain ⟨h1, h2⟩ := Prod.mk.inj hdef
      rw [hG, ← h1, ← h2]
      exact ⟨rfl, rfl⟩

/-- Witness for C3 at the concrete hierarchy ROOT > A > A1, ROOT > B: both
walks terminate naturally and every conclusion of the decomposition theorem
holds at A1 → B. -/
theorem c3_witness :
    (∃ n, (GetStateHierarchy2
      [("ROOT", ⟨"ROOT", "", ["A", "B"], 0⟩), ("A", ⟨"A", "ROOT", ["A1"], 0⟩),
       ("A1", ⟨"A1", "A", [], 0⟩), ("B", ⟨"B", "ROOT", [], 0⟩)] "A1" "B").1 =
      (GetStateHierarchy1
        [("ROOT", ⟨"ROOT", "", ["A", "B"], 0⟩), ("A", ⟨"A", "ROOT", ["A1"], 0⟩),
         ("A1", ⟨"A1", "A", [], 0⟩), ("B", ⟨"B", "ROOT", [], 0⟩)] "A1").take n) ∧
    (∃ n, (GetStateHierarchy2
      [("ROOT", ⟨"ROOT", "", ["A", "B"], 0⟩), ("A", ⟨"A", "ROOT", ["A1"], 0⟩),
       ("A1", ⟨"A1", "A", [], 0⟩), ("B", ⟨"B", "ROOT", [], 0⟩)] "A1" "B").2 =
      ((GetStateHierarchy1
        [("ROOT", ⟨"ROOT", "", ["A", "B"], 0⟩), ("A", ⟨"A", "ROOT", ["A1"], 0⟩),
         ("A1", ⟨"A1", "A", [], 0⟩), ("B", ⟨"B", "ROOT", [], 0⟩)] "B").reverse).drop n) ∧
    (∀ z, z ∈ (GetStateHierarchy2
      [("ROOT", ⟨"ROOT", "", ["A", "B"], 0⟩), ("A", ⟨"A", "ROOT", ["A1"], 0⟩),
       ("A1", ⟨"A1", "A", [], 0⟩), ("B", ⟨"B", "ROOT", [], 0⟩)] "A1" "B").1 →
      z ∈ (GetStateHierarchy2
      [("ROOT", ⟨"ROOT", "", ["A", "B"], 0⟩), ("A", ⟨"A", "ROOT", ["A1"], 0⟩),
       ("A1", ⟨"A1", "A", [], 0⟩), ("B", ⟨"B", "ROOT", [], 0⟩)] "A1" "B").2 → False) ∧
    ("A1" = "B" →
      (GetStateHierarchy2
        [("ROOT", ⟨"ROOT", "", ["A", "B"], 0⟩), ("A", ⟨"A", "ROOT", ["A1"], 0⟩),
         ("A1", ⟨"A1", "A", [], 0⟩), ("B", ⟨"B", "ROOT", [], 0⟩)] "A1" "B").1 = [] ∧
      (GetStateHierarchy2
        [("ROOT", ⟨"ROOT", "", ["A", "B"], 0⟩), ("A", ⟨"A", "ROOT", ["A1"], 0⟩),
         ("A1", ⟨"A1", "A", [], 0⟩), ("B", ⟨"B", "ROOT", [], 0⟩)] "A1" "B").2 = []) :=
  c3_exit_enter_decomposition
    [("ROOT", ⟨"ROOT", "", ["A", "B"], 0⟩), ("A", ⟨"A", "ROOT", ["A1"], 0⟩),
     ("A1", ⟨"A1", "A", [], 0⟩), ("B", ⟨"B", "ROOT", [], 0⟩)] "A1" "B"
    (by rfl) (by rfl)

/-- Claim C8: while a component is running, `AddTransition`, `AddCondition`,
`AddEventDefinition` and `AddStateInfo` are all rejected up front: the Bool
APIs return false, the void `AddCondition` is a no-op, and the stored
transition rules, condition descriptors, event definitions and states are
returned unchanged. -/
theorem c8_mutation_apis_rejected_while_running :
    (∀ ts r, AddTransition true ts r = (false, ts)) ∧
    (∀ all vals c now, AddCondition true all vals c now = (all, vals)) ∧
    (∀ defs d, AddEventDefinition true defs d = (false, defs)) ∧
    (∀ states si, AddStateInfo true states si = (false, states)) :=
  ⟨fun _ _ => rfl, fun _ _ _ _ => rfl, fun _ _ => rfl, fun _ _ => rfl⟩

/-- Claim C9: `AddStateInfo` called (not running) with the child "child" whose
parent "ghost" was never registered returns false — but the child HAS been
inserted into the state map before the parent check, so the failed call leaves
a partial mutation behind: a registered state whose parent is unregistered. -/
theorem c9_failed_addState_leaves_child_registered :
    AddStateInfo false [] ⟨"child", "ghost", [], 0⟩ =
      (false, [("child", ⟨"child", "ghost", [], 0⟩)]) ∧
    findState ((AddStateInfo false [] ⟨"child", "ghost", [], 0⟩).2) "child" =
      some ⟨"child", "ghost", [], 0⟩ := by
  decide

/-- Claim C10: `SetState` with a name absent from the state map returns false
and leaves both the current-state value and the state-timeout record exactly
as they were. -/
theorem c10_setState_unregistered_is_noop (states : StateMap) (cur : String)
    (tinfo : StateTimeoutInfo) (s : String) (now : Int)
    (h : findState states s = none) :
    SetState states cur tinfo s now = (false, cur, tinfo) := by
  unfold SetState
  rw [h]

/-- Witness for C10 at a concrete input: "B" is not registered, and the failed
call changes nothing. -/
theorem c10_witness :
    findState [("A", ⟨"A", "", [], 0⟩)] "B" = none ∧
    SetState [("A", ⟨"A", "", [], 0⟩)] "A" ⟨"", 0, 0, 0⟩ "B" 5 =
      (false, "A", ⟨"", 0, 0, 0⟩) :=
  ⟨rfl, c10_setState_unregistered_is_noop _ _ _ _ _ rfl⟩

end SMF
